import Mathlib

/-!
Verification development for the ai-blockchain repository.

Shallow embedding of the Go sources:
  * `pkg/blockchain/chain.go` (chain manager: `AddBlock`, `processOrphans`,
    `tryFormChain`, `findBlockByHash`, `reorganizeChain`, `HasBlock`,
    `GetBlockByHeight`);
  * the transaction / block model (`computeMerkleRoot`,
    `ComputeVMOutputsHash`, mempool `AddTransaction`);
  * `pkg/pow/pow.go` (`serializeHeader`, `PerformProofOfWork`,
    `ValidateProofOfWork`);
  * the VM dispatcher `RunVM` of `pkg/vm`;
  * the block-building portion of the miner's `MineBlock`.

Go byte strings (`[]byte` and `string`) are embedded as `List Nat`
(byte values); `nil` slices are embedded as `[]`, which is faithful to
every use the embedded code makes of them (`bytes.Equal`, `string(...)`
conversions, length tests, prefix tests).  SHA-256 itself is opaque to
every verified property, so the digest function is a parameter
`sha : List Nat → List Nat` of the definitions that hash.

Go maps are embedded as association lists in insertion order: map
assignment overwrites in place, `delete` removes the unique binding,
iteration follows the list.  (Go map iteration order is unspecified;
the embedding fixes the insertion order.)  Mutation is embedded by
explicit state passing; clock reads (`time.Now().UnixNano()`) become an
explicit `now` argument; `panic` and nontermination become `Option`.
-/

set_option autoImplicit false

namespace AiBlockchain

/-- A Go byte string (`[]byte` or `string`): the list of its byte values. -/
abbrev Bytes := List Nat

/-- The genesis sentinel `[]byte("GENESIS")` of `chain.go`. -/
def GENESIS : Bytes := [71, 69, 78, 69, 83, 73, 83]

/-- Transaction struct of the blockchain package. -/
structure Transaction where
  txID : Bytes
  dataHash : Bytes
  algorithmHash : Bytes
  metadata : Bytes
  vmOutput : Bytes
  timestamp : Int
  deriving DecidableEq, Repr

/-- BlockHeader struct of the blockchain package. -/
structure BlockHeader where
  previousHash : Bytes
  timestamp : Int
  nonce : Nat
  merkleRoot : Bytes
  difficulty : Nat
  vmOutputsHash : Bytes
  hash : Bytes
  deriving DecidableEq, Repr

/-- Block struct of the blockchain package (the unused top-level
`Nonce`/`Hash` fields of the Go struct are omitted: no embedded code
reads them). -/
structure Block where
  header : BlockHeader
  transactions : List Transaction
  deriving DecidableEq, Repr

/-! ### Association lists: the embedding of Go maps keyed by byte strings -/

/-- Lookup in a Go map embedded as an association list. -/
def lookupA {α : Type} : List (Bytes × α) → Bytes → Option α
  | [], _ => none
  | (k', v') :: t, k => if k' = k then some v' else lookupA t k

/-- Go map assignment `m[k] = v`: overwrite in place, else append. -/
def insertA {α : Type} : List (Bytes × α) → Bytes → α → List (Bytes × α)
  | [], k, v => [(k, v)]
  | (k', v') :: t, k, v =>
      if k' = k then (k, v) :: t else (k', v') :: insertA t k v

/-- Go `delete(m, k)`: remove the (unique) binding of `k`. -/
def removeA {α : Type} : List (Bytes × α) → Bytes → List (Bytes × α)
  | [], _ => []
  | (k', v') :: t, k => if k' = k then t else (k', v') :: removeA t k

/-! ### Mempool (`AddTransaction` and friends) -/

/-- Mempool struct: `Transactions map[string]Transaction`. -/
structure Mempool where
  transactions : List (Bytes × Transaction)
  deriving DecidableEq, Repr

/-- NewMempool. -/
def newMempool : Mempool := ⟨[]⟩

/-- AddTransaction: `m.Transactions[string(tx.TxID)] = tx`. -/
def addTransaction (m : Mempool) (tx : Transaction) : Mempool :=
  ⟨insertA m.transactions tx.txID tx⟩

/-- HasTransaction. -/
def hasTransaction (m : Mempool) (txID : Bytes) : Bool :=
  (lookupA m.transactions txID).isSome

/-- RemoveTransaction: `delete(m.Transactions, txID)`. -/
def removeTransaction (m : Mempool) (txID : Bytes) : Mempool :=
  ⟨removeA m.transactions txID⟩

/-- GetTransaction. -/
def getTransaction (m : Mempool) (h : Bytes) : Option Transaction :=
  lookupA m.transactions h

/-! ### Merkle root (`computeMerkleRoot` of `chain.go`) -/

/-- One pass of the inner `for i := 0; i < len(hashes); i += 2` loop:
adjacent pairs are combined with `sha256(hᵢ ‖ hᵢ₊₁)`, an odd trailing
element is promoted unchanged. -/
def merkleLevel (sha : Bytes → Bytes) : List Bytes → List Bytes
  | [] => []
  | [h] => [h]
  | h1 :: h2 :: t => sha (h1 ++ h2) :: merkleLevel sha t

theorem merkleLevel_length_le (sha : Bytes → Bytes) :
    ∀ l : List Bytes, (merkleLevel sha l).length ≤ l.length
  | [] => by simp [merkleLevel]
  | [h] => by simp [merkleLevel]
  | h1 :: h2 :: t => by
      have ih := merkleLevel_length_le sha t
      simp only [merkleLevel, List.length_cons]
      omega

theorem merkleLevel_length_lt (sha : Bytes → Bytes) (l : List Bytes)
    (h : 1 < l.length) : (merkleLevel sha l).length < l.length := by
  match l with
  | [] => simp at h
  | [x] => simp at h
  | x :: y :: t =>
      have ih := merkleLevel_length_le sha t
      simp only [merkleLevel, List.length_cons]
      omega

/-- The outer `for len(hashes) > 1` loop of `computeMerkleRoot`. -/
def merkleLoop (sha : Bytes → Bytes) (hashes : List Bytes) : List Bytes :=
  if h : 1 < hashes.length then merkleLoop sha (merkleLevel sha hashes)
  else hashes
  termination_by hashes.length
  decreasing_by exact merkleLevel_length_lt sha hashes h

/-- `computeMerkleRoot` of `chain.go`: `nil` (= `[]`) on the empty list,
otherwise the loop until one hash remains, returning `hashes[0]`. -/
def computeMerkleRoot (sha : Bytes → Bytes) (hashes : List Bytes) : Bytes :=
  if hashes = [] then []
  else (merkleLoop sha hashes).headD []

/-- `(*Block).ComputeMerkleRoot`: Merkle root over the listed TxIDs. -/
def blockComputeMerkleRoot (sha : Bytes → Bytes) (b : Block) : Block :=
  { b with header :=
      { b.header with
          merkleRoot := computeMerkleRoot sha (b.transactions.map (·.txID)) } }

/-- `(*Block).ComputeVMOutputsHash`: `nil` for an empty transaction list,
otherwise SHA-256 of the concatenation of the `VMOutput`s. -/
def blockComputeVMOutputsHash (sha : Bytes → Bytes) (b : Block) : Block :=
  if b.transactions = [] then
    { b with header := { b.header with vmOutputsHash := [] } }
  else
    { b with header :=
        { b.header with
            vmOutputsHash :=
              sha (b.transactions.foldl (fun acc tx => acc ++ tx.vmOutput) []) } }

/-! ### Proof of work (`pkg/pow/pow.go`) -/

/-- Big-endian 8-byte encoding of a `uint64`
(`binary.BigEndian.PutUint64`). -/
def beBytes8 (n : Nat) : Bytes :=
  [n / 2 ^ 56 % 256, n / 2 ^ 48 % 256, n / 2 ^ 40 % 256, n / 2 ^ 32 % 256,
   n / 2 ^ 24 % 256, n / 2 ^ 16 % 256, n / 2 ^ 8 % 256, n % 256]

/-- `serializeHeader`: `header ‖ big-endian(nonce, 8 bytes)`. -/
def serializeHeader (header : Bytes) (nonce : Nat) : Bytes :=
  header ++ beBytes8 nonce

/-- One lowercase hex digit (byte value of the ASCII character). -/
def hexDigit (n : Nat) : Nat := if n < 10 then 48 + n else 87 + n

/-- Lowercase hex encoding of a byte string (`fmt.Sprintf("%x", ...)`),
as the byte values of the resulting ASCII string. -/
def toHex (bs : Bytes) : Bytes :=
  bs.foldr (fun b acc => hexDigit (b / 16) :: hexDigit (b % 16) :: acc) []

/-- `strings.HasPrefix s pat` with the pattern first. -/
def hasPrefixL : Bytes → Bytes → Bool
  | [], _ => true
  | _ :: _, [] => false
  | a :: as, b :: bs => a == b && hasPrefixL as bs

/-- `isValidHash` of `pow.go`. -/
def isValidHash (hash difficultyTarget : Bytes) : Bool :=
  hasPrefixL difficultyTarget hash

/-- The `for` loop of `PerformProofOfWork`.  The `fuel` argument bounds
the number of iterations; the Go loop increments the nonce and panics
when it reaches `2^64 - 1`, which the embedding returns as `none`. -/
def powLoop (sha : Bytes → Bytes) (header target : Bytes) :
    Nat → Nat → Option (Nat × Bytes)
  | 0, _ => none
  | fuel + 1, nonce =>
      let hash := toHex (sha (serializeHeader header nonce))
      if hasPrefixL target hash then some (nonce, hash)
      else
        let nonce' := nonce + 1
        if nonce' = 2 ^ 64 - 1 then none
        else powLoop sha header target fuel nonce'

/-- `PerformProofOfWork`: searches from nonce 0 for a hash whose
lowercase hex encoding starts with `len(difficulty)` zero characters
(the ASCII byte 48); returns the nonce and the hex hash string. -/
def performProofOfWork (sha : Bytes → Bytes) (header difficulty : Bytes) :
    Option (Nat × Bytes) :=
  powLoop sha header (List.replicate difficulty.length 48) (2 ^ 64) 0

/-- `ValidateProofOfWork`: recompute the hash and check that the
literal `difficulty` string is a prefix of its hex encoding. -/
def validateProofOfWork (sha : Bytes → Bytes) (header : Bytes)
    (nonce : Nat) (difficulty : Bytes) : Bool :=
  hasPrefixL difficulty (toHex (sha (serializeHeader header nonce)))

/-! ### VM dispatcher (`RunVM` of `pkg/vm`) -/

/-- Error outcomes of `RunVM` (`errors.New`/`fmt.Errorf` values in Go). -/
inductive VMErr where
  /-- The `data cannot be empty` error. -/
  | emptyData : VMErr
  /-- The `failed to parse input data` error wrapping a CSV failure. -/
  | parseFailed : VMErr
  /-- The `unsupported algorithm` error. -/
  | unsupported : VMErr
  deriving DecidableEq, Repr

/-- `strings.Contains s pat` (substring occurrence), pattern first. -/
def containsSub (pat : Bytes) : Bytes → Bool
  | [] => hasPrefixL pat []
  | b :: t => hasPrefixL pat (b :: t) || containsSub pat t

/-- The byte string of the token `KMeans`. -/
def kmeansToken : Bytes := [75, 77, 101, 97, 110, 115]

/-- `string(algorithm)` for a possibly-`nil` `[]byte`. -/
def algoBytes : Option Bytes → Bytes
  | none => []
  | some a => a

/-- `RunVM` of `pkg/vm`.  `parseCSV` stands for
`config.ParseCSVToJSON` (returns `none` on a parse error) and
`runKMeans` for `RunKMeans`; both are opaque to the dispatch logic
being verified.  Dispatch: preprocess when the data contains a comma
(byte 44), then run K-Means iff the algorithm bytes contain the token
`KMeans`. -/
def runVM (parseCSV : Bytes → Option Bytes)
    (runKMeans : Bytes → Except VMErr Bytes)
    (algorithm : Option Bytes) (data : Bytes) : Except VMErr Bytes :=
  if data = [] then .error .emptyData
  else
    match (if containsSub [44] data then
             match parseCSV data with
             | none => Except.error VMErr.parseFailed
             | some d => Except.ok d
           else Except.ok data : Except VMErr Bytes) with
    | .error e => .error e
    | .ok data' =>
        if containsSub kmeansToken (algoBytes algorithm) then runKMeans data'
        else .error .unsupported

/-! ### Chain manager (`pkg/blockchain/chain.go`) -/

/-- Blockchain struct: `Blocks map[int]*Block` is embedded as a list
indexed by height (the code keeps the key set contiguous `0..n-1`),
`ByHash` and `OrphanBlocks` as association lists keyed by the raw hash
bytes (`string(hash)`). -/
structure Blockchain where
  blocks : List Block
  byHash : List (Bytes × Block)
  orphanBlocks : List (Bytes × Block)
  deriving DecidableEq, Repr

/-- NewBlockchain. -/
def newBlockchain : Blockchain := ⟨[], [], []⟩

/-- The errors `AddBlock` returns (`fmt.Errorf` values in Go). -/
inductive ChainErr where
  /-- `duplicate block with Hash %x` -/
  | duplicateBlock : ChainErr
  /-- `duplicate orphan block with Hash %x` -/
  | duplicateOrphan : ChainErr
  /-- `unknown ancestor block with hash %x` -/
  | unknownAncestor : ChainErr
  deriving DecidableEq, Repr

/-- `findBlockByHash`: main-chain index first, then the orphan pool. -/
def findBlockByHash (bc : Blockchain) (hash : Bytes) : Option Block :=
  match lookupA bc.byHash hash with
  | some b => some b
  | none => lookupA bc.orphanBlocks hash

/-- The backward walk of `tryFormChain`.  `acc` holds the chain built
so far in genesis-to-tip order with the current block at its head, so
the Go `reverse` at the end is already performed.  `fuel` bounds the
walk; exhaustion models the nontermination of the Go loop on a cyclic
hash graph (unreachable from the embedded operations). -/
def walkBack (bc : Blockchain) : Nat → Block → List Block → Option (List Block)
  | 0, _, _ => none
  | fuel + 1, current, acc =>
      if current.header.previousHash = GENESIS then some acc
      else
        match findBlockByHash bc current.header.previousHash with
        | none => none
        | some prev => walkBack bc fuel prev (prev :: acc)

/-- `tryFormChain`: walk back from `block` to the GENESIS sentinel,
resolving each parent via `ByHash ∪ OrphanBlocks`; returns the chain
`[genesis, …, block]`, or `none` where Go returns an error. -/
def tryFormChain (bc : Blockchain) (block : Block) : Option (List Block) :=
  walkBack bc (bc.byHash.length + bc.orphanBlocks.length + 1) block [block]

/-- `reorganizeChain`: replace `Blocks` and `ByHash` by the new chain
(indexed `0..n-1`); the orphan pool is left as is. -/
def reorganizeChain (bc : Blockchain) (newChain : List Block) : Blockchain :=
  { bc with
      blocks := newChain
      byHash := newChain.foldl (fun m blk => insertA m blk.header.hash blk) [] }

/-- One pass of the `for hash, orphan := range bc.OrphanBlocks` loop of
`processOrphans`: `pending` is the iteration snapshot (only the entry
being processed is ever deleted, so the remaining entries stay live). -/
def orphanPass (bc : Blockchain) :
    List (Bytes × Block) → Bool → Blockchain × Bool
  | [], progress => (bc, progress)
  | (hash, orphan) :: rest, progress =>
      match tryFormChain bc orphan with
      | none => orphanPass bc rest progress
      | some newChain =>
          if bc.blocks.length < newChain.length then
            orphanPass
              { reorganizeChain bc newChain with
                  orphanBlocks :=
                    removeA (reorganizeChain bc newChain).orphanBlocks hash }
              rest true
          else orphanPass bc rest progress

/-- The outer `for { … if !progressMade break }` loop of
`processOrphans`.  Every progressing pass removes at least one orphan
and no pass adds one, so `orphan count + 1` passes always reach the
fixed point; `fuel` carries that bound. -/
def processOrphansFuel : Nat → Blockchain → Blockchain
  | 0, bc => bc
  | fuel + 1, bc =>
      match orphanPass bc bc.orphanBlocks false with
      | (bc', true) => processOrphansFuel fuel bc'
      | (bc', false) => bc'

/-- `processOrphans`: iterate passes over the orphan pool to fixed point. -/
def processOrphans (bc : Blockchain) : Blockchain :=
  processOrphansFuel (bc.orphanBlocks.length + 1) bc

/-- A zero-valued block.  It only ever serves as the default of a
total-function embedding of a Go map/slice access that the code keeps
in bounds (`Blocks[height-1]` with `height ≥ 1`). -/
def blockZero : Block :=
  ⟨⟨[], 0, 0, [], 0, [], []⟩, []⟩

/-- The genesis-path mutation of `AddBlock`:
`block.Header.PreviousHash = []byte("GENESIS")`,
`block.Header.Timestamp = time.Now().UnixNano()`. -/
def stampGenesisB (b : Block) (now : Int) : Block :=
  { b with header := { b.header with previousHash := GENESIS, timestamp := now } }

/-- The tip-path mutation of `AddBlock`:
`block.Header.Timestamp = time.Now().UnixNano()`. -/
def stampTipB (b : Block) (now : Int) : Block :=
  { b with header := { b.header with timestamp := now } }

/-- `AddBlock`.  `now` is the value of `time.Now().UnixNano()`; the
in-place mutations of the Go code become the returned state. -/
def addBlock (bc : Blockchain) (block : Block) (now : Int) :
    Except ChainErr Blockchain :=
  if bc.blocks.any (fun eb => eb.header.hash = block.header.hash) then
    .error .duplicateBlock
  else if bc.orphanBlocks.any (fun o => o.2.header.hash = block.header.hash) then
    .error .duplicateOrphan
  else if bc.blocks.length = 0 then
    .ok (processOrphans
      { bc with
          blocks := [stampGenesisB block now]
          byHash := insertA bc.byHash (stampGenesisB block now).header.hash
            (stampGenesisB block now) })
  else
    if block.header.previousHash = (bc.blocks.getLastD blockZero).header.hash then
      .ok (processOrphans
        { bc with
            blocks := bc.blocks ++ [stampTipB block now]
            byHash := insertA bc.byHash (stampTipB block now).header.hash
              (stampTipB block now) })
    else
      match tryFormChain bc block with
      | none =>
          if (findBlockByHash bc block.header.previousHash).isNone then
            .error .unknownAncestor
          else
            .ok { bc with
                    orphanBlocks :=
                      insertA bc.orphanBlocks block.header.hash block }
      | some newChain =>
          if bc.blocks.length < newChain.length then
            .ok (processOrphans (reorganizeChain bc newChain))
          else
            .ok (processOrphans
              { bc with
                  orphanBlocks :=
                    insertA bc.orphanBlocks block.header.hash block })

/-- `HasBlock`: a lookup in `ByHash` keyed by the raw hash bytes. -/
def hasBlock (bc : Blockchain) (hash : Bytes) : Bool :=
  (lookupA bc.byHash hash).isSome

/-- `GetBlock`. -/
def getBlock (bc : Blockchain) (hash : Bytes) : Option Block :=
  lookupA bc.byHash hash

/-- `GetBlockByHeight`. -/
def getBlockByHeight (bc : Blockchain) (height : Nat) : Option Block :=
  bc.blocks[height]?

/-- The chain states reachable from `NewBlockchain` by any sequence of
`AddBlock` calls (failed calls leave the state unchanged). -/
inductive Reachable : Blockchain → Prop
  | init : Reachable newBlockchain
  | step (bc : Blockchain) (b : Block) (now : Int) (bc' : Blockchain) :
      Reachable bc → addBlock bc b now = .ok bc' → Reachable bc'

/-! ### The block-building portion of the miner's `MineBlock`
(`cmd/node` miner package) -/

/-- The block-assembly steps of `MineBlock`:
`previousHash := Blocks[len(Blocks)-1].Header.MerkleRoot`, build the
header with a fresh timestamp and zero nonce, attach the processed
transactions, then `ComputeMerkleRoot` and `ComputeVMOutputsHash`. -/
def mineBlockBuild (sha : Bytes → Bytes) (bc : Blockchain)
    (transactions : List Transaction) (now : Int) : Block :=
  let previousHash := (bc.blocks.getLastD blockZero).header.merkleRoot
  let block : Block :=
    { header :=
        { previousHash := previousHash
          timestamp := now
          nonce := 0
          merkleRoot := []
          difficulty := 0
          vmOutputsHash := []
          hash := [] }
      transactions := transactions }
  blockComputeVMOutputsHash sha (blockComputeMerkleRoot sha block)

/-! ### Concrete blocks and states used by witnesses and counterexamples -/

/-- A block carrying only a hash and a previous-hash (the chain manager
reads nothing else). -/
def mkB (hash prev : Bytes) : Block :=
  ⟨⟨prev, 0, 0, [], 0, [], hash⟩, []⟩

/-- The stamped genesis block of hash `[65]` as `AddBlock` stores it. -/
def gStamped : Block := stampGenesisB (mkB [65] [99]) 5

/-- A one-block chain: the result of adding `mkB [65] [99]` to the
fresh chain at time 5. -/
def chain1 : Blockchain := ⟨[gStamped], [([65], gStamped)], []⟩

/-- The stamped tip block of hash `[66]` extending `chain1` at time 6. -/
def bStamped : Block := stampTipB (mkB [66] [65]) 6

/-- A two-block chain: `chain1` extended by `mkB [66] [65]` at time 6. -/
def chain2 : Blockchain :=
  ⟨[gStamped, bStamped], [([65], gStamped), ([66], bStamped)], []⟩

/-! ### Chain-state invariants -/

/-- Every binding of a hash-keyed map is keyed by its block's own hash
(`m[string(b.Header.Hash)] = b` is the only insertion the code performs). -/
def KeysOk (l : List (Bytes × Block)) : Prop :=
  ∀ e ∈ l, e.2.header.hash = e.1

/-- The linkage property of a height-ordered chain: every block's
`PreviousHash` equals the previous block's `Hash`. -/
def linkedB : List Block → Bool
  | [] => true
  | [_] => true
  | a :: b :: t =>
      (b.header.previousHash == a.header.hash) && linkedB (b :: t)

/-- A non-empty chain starts at a block whose `PreviousHash` is the
GENESIS sentinel. -/
def genesisPrevB : List Block → Bool
  | [] => true
  | b :: _ => b.header.previousHash == GENESIS

/-- Pairwise distinct block hashes. -/
def noDupB : List Block → Bool
  | [] => true
  | b :: t => t.all (fun x => x.header.hash != b.header.hash) && noDupB t

/-- The structural invariants of a main chain that the amended claims
C1 and C3 assume: `ByHash` mirrors `Blocks` exactly, the chain is
linked, starts at the sentinel, has pairwise distinct hashes, and no
block hash collides with the sentinel string. -/
def ChainInv (bc : Blockchain) : Prop :=
  bc.byHash = bc.blocks.map (fun blk => (blk.header.hash, blk))
  ∧ linkedB bc.blocks = true
  ∧ genesisPrevB bc.blocks = true
  ∧ noDupB bc.blocks = true
  ∧ bc.blocks.all (fun blk => blk.header.hash != GENESIS) = true

/-- The inductive invariant carried through `Reachable` for claim C4:
both hash maps are keyed consistently and the main chain is linked and
sentinel-rooted. -/
def Inv4 (bc : Blockchain) : Prop :=
  KeysOk bc.byHash ∧ KeysOk bc.orphanBlocks
  ∧ linkedB bc.blocks = true ∧ genesisPrevB bc.blocks = true

/-! ### C6 — Merkle root computation -/

/-- C6: `computeMerkleRoot` returns nil on the empty list; the root of a
one-element list is that element itself; otherwise each level replaces
adjacent pairs `(hᵢ, hᵢ₊₁)` by `SHA256(hᵢ ‖ hᵢ₊₁)` and promotes an odd
trailing element unchanged, and the loop recurses on the new level
until a single hash remains. -/
theorem claim_C6_merkle_root (sha : Bytes → Bytes) (hh x y : Bytes)
    (t : List Bytes) :
    computeMerkleRoot sha [] = []
    ∧ computeMerkleRoot sha [hh] = hh
    ∧ computeMerkleRoot sha (x :: y :: t) =
        computeMerkleRoot sha (merkleLevel sha (x :: y :: t))
    ∧ merkleLevel sha (x :: y :: t) = sha (x ++ y) :: merkleLevel sha t
    ∧ merkleLevel sha [hh] = [hh] := by
  refine ⟨rfl, ?_, ?_, rfl, rfl⟩
  · rw [computeMerkleRoot, if_neg (by simp), merkleLoop]
    simp
  · rw [computeMerkleRoot, if_neg (by simp), computeMerkleRoot,
      if_neg (by simp [merkleLevel]), merkleLoop]
    simp [List.length_cons]

/-! ### C7 and C10 — proof-of-work search and validation -/

theorem powLoop_some (sha : Bytes → Bytes) (header target : Bytes) :
    ∀ (fuel nonce n : Nat) (h : Bytes),
      powLoop sha header target fuel nonce = some (n, h) →
      h = toHex (sha (serializeHeader header n)) ∧ hasPrefixL target h = true
  | 0, _, _, _, hEq => by simp [powLoop] at hEq
  | fuel + 1, nonce, n, h, hEq => by
      rw [powLoop] at hEq
      by_cases hp : hasPrefixL target (toHex (sha (serializeHeader header nonce))) = true
      · simp only [hp, if_true] at hEq
        obtain ⟨rfl, rfl⟩ := by
          simpa using hEq
        exact ⟨rfl, hp⟩
      · simp only [hp] at hEq
        by_cases hm : nonce + 1 = 2 ^ 64 - 1
        · simp [hm] at hEq
        · simp only [hm, if_false] at hEq
          exact powLoop_some sha header target fuel (nonce + 1) n h hEq

/-- C7: for every header preimage and every difficulty in
`{"", "0", "00", "000"}`, whenever `PerformProofOfWork` returns, feeding
the returned nonce into `ValidateProofOfWork` yields true. -/
theorem claim_C7_pow_roundtrip (sha : Bytes → Bytes) (header d : Bytes)
    (n : Nat) (h : Bytes)
    (hd : d = [] ∨ d = [48] ∨ d = [48, 48] ∨ d = [48, 48, 48])
    (hperf : performProofOfWork sha header d = some (n, h)) :
    validateProofOfWork sha header n d = true := by
  obtain ⟨hh, hpre⟩ := powLoop_some sha header
    (List.replicate d.length 48) (2 ^ 64) 0 n h hperf
  have htarget : List.replicate d.length 48 = d := by
    rcases hd with rfl | rfl | rfl | rfl <;> rfl
  rw [validateProofOfWork, ← hh, ← htarget]
  exact hpre

/-- C7 witness: an abstract digest returning `[0]` makes the search
succeed at nonce 0 with hash `"00"`, and validation confirms it. -/
theorem claim_C7_pow_roundtrip_witness :
    performProofOfWork (fun _ => [0]) [1, 2] [48] = some (0, [48, 48])
    ∧ validateProofOfWork (fun _ => [0]) [1, 2] 0 [48] = true := by
  refine ⟨by decide, ?_⟩
  exact claim_C7_pow_roundtrip (fun _ => [0]) [1, 2] [48] 0 [48, 48]
    (Or.inr (Or.inl rfl)) (by decide)

/-- C10: for every difficulty string `d` of any characters, the hash
returned by `PerformProofOfWork` begins with `len(d)` repetitions of
the character `0` (the search target depends only on the length of
`d`), whereas `ValidateProofOfWork` checks the literal string `d` as
the required prefix of the recomputed hash. -/
theorem claim_C10_pow_target_zeros (sha : Bytes → Bytes) (header d : Bytes)
    (n : Nat) (h : Bytes)
    (hperf : performProofOfWork sha header d = some (n, h)) :
    hasPrefixL (List.replicate d.length 48) h = true
    ∧ validateProofOfWork sha header n d = hasPrefixL d h := by
  obtain ⟨hh, hpre⟩ := powLoop_some sha header
    (List.replicate d.length 48) (2 ^ 64) 0 n h hperf
  exact ⟨hpre, by rw [validateProofOfWork, ← hh]⟩

/-- C10 witness: with the difficulty string `"a"` the search still
looks for the prefix `"0"` (one zero for the one-character length),
finds it at nonce 0, and validation — which checks the literal `"a"` —
returns false on the very hash the search accepted. -/
theorem claim_C10_pow_target_zeros_witness :
    performProofOfWork (fun _ => [0]) [1, 2] [97] = some (0, [48, 48])
    ∧ hasPrefixL (List.replicate ([97] : Bytes).length 48) [48, 48] = true
    ∧ validateProofOfWork (fun _ => [0]) [1, 2] 0 [97] = hasPrefixL [97] [48, 48] := by
  refine ⟨by decide, ?_, ?_⟩
  · exact (claim_C10_pow_target_zeros (fun _ => [0]) [1, 2] [97] 0 [48, 48]
      (by decide)).1
  · exact (claim_C10_pow_target_zeros (fun _ => [0]) [1, 2] [97] 0 [48, 48]
      (by decide)).2

/-! ### C8 — VM dispatch -/

/-- C8 counterexample: with a nil (absent) algorithm and non-empty,
comma-free data `"[1]"`, `RunVM` returns the unsupported-algorithm
error instead of dispatching to K-Means: `string(nil)` is `""`, which
does not contain the token `KMeans`. -/
theorem claim_C8_counterexample :
    runVM (fun _ => none) (fun d => .ok d) none [91, 49, 93]
      = .error .unsupported
    ∧ (Except.error VMErr.unsupported : Except VMErr Bytes)
        ≠ (fun d => (Except.ok d : Except VMErr Bytes)) [91, 49, 93] := by
  exact ⟨rfl, by simp⟩

/-- C8 amended: `RunVM` fails with the empty-input error on empty data;
non-empty data is first CSV-transcoded when it contains a comma
(byte 44), failing with a parse error when the transcoding fails; the
surviving data is dispatched to K-Means exactly when the algorithm
bytes contain the token `KMeans` — an absent (nil) algorithm reads as
the empty string and is rejected with the unsupported-algorithm error
like every other non-`KMeans` value. -/
theorem claim_C8_dispatch (parseCSV : Bytes → Option Bytes)
    (runKMeans : Bytes → Except VMErr Bytes) (algo : Option Bytes)
    (x : Nat) (t : Bytes) :
    runVM parseCSV runKMeans algo [] = .error .emptyData
    ∧ runVM parseCSV runKMeans algo (x :: t) =
        (if containsSub [44] (x :: t) then
           match parseCSV (x :: t) with
           | none => Except.error VMErr.parseFailed
           | some d' =>
               if containsSub kmeansToken (algoBytes algo) then runKMeans d'
               else Except.error VMErr.unsupported
         else
           if containsSub kmeansToken (algoBytes algo) then runKMeans (x :: t)
           else Except.error VMErr.unsupported) := by
  refine ⟨rfl, ?_⟩
  rw [runVM, if_neg (by simp)]
  by_cases hc : containsSub [44] (x :: t) = true
  · simp only [hc, if_true]
    cases parseCSV (x :: t) <;> simp
  · simp only [Bool.not_eq_true] at hc
    simp only [hc]
    simp

/-! ### C9 — mempool duplicate insertion -/

theorem insertA_lookup_self {α : Type} :
    ∀ (l : List (Bytes × α)) (k : Bytes) (v : α),
      lookupA l k = some v → insertA l k v = l
  | [], k, v, hl => by simp [lookupA] at hl
  | (k', v') :: t, k, v, hl => by
      by_cases hk : k' = k
      · rw [lookupA, if_pos hk] at hl
        rw [insertA, if_pos hk, hk]
        injection hl with hv
        rw [hv]
      · rw [lookupA, if_neg hk] at hl
        rw [insertA, if_neg hk, insertA_lookup_self t k v hl]

/-- C9 counterexample: `AddTransaction` overwrites on a duplicate key.
Re-adding a different transaction with the same `TxID` replaces the
stored transaction, so the duplicate `Add` is not a no-op. -/
theorem claim_C9_counterexample :
    addTransaction ⟨[([1], ⟨[1], [], [], [120], [], 0⟩)]⟩ ⟨[1], [], [], [121], [], 0⟩
        ≠ (⟨[([1], ⟨[1], [], [], [120], [], 0⟩)]⟩ : Mempool)
    ∧ getTransaction
        (addTransaction ⟨[([1], ⟨[1], [], [], [120], [], 0⟩)]⟩ ⟨[1], [], [], [121], [], 0⟩)
        [1] = some ⟨[1], [], [], [121], [], 0⟩ := by
  exact ⟨by decide, by decide⟩

/-- C9 amended: `AddTransaction` stores the transaction under its
`TxID` key, overwriting any previous binding; when the transaction
being added is identical to the one already stored under that key, the
mempool is left unchanged (idempotent re-insertion). -/
theorem claim_C9_duplicate_add (m : Mempool) (tx : Transaction)
    (hdup : lookupA m.transactions tx.txID = some tx) :
    addTransaction m tx = m := by
  rw [addTransaction, insertA_lookup_self m.transactions tx.txID tx hdup]

/-- C9 witness: re-adding an identical stored transaction leaves a
concrete one-entry mempool unchanged. -/
theorem claim_C9_duplicate_add_witness :
    addTransaction ⟨[([1], ⟨[1], [], [], [120], [], 0⟩)]⟩ ⟨[1], [], [], [120], [], 0⟩
      = (⟨[([1], ⟨[1], [], [], [120], [], 0⟩)]⟩ : Mempool) :=
  claim_C9_duplicate_add ⟨[([1], ⟨[1], [], [], [120], [], 0⟩)]⟩
    ⟨[1], [], [], [120], [], 0⟩ (by decide)

/-! ### C2 — the miner's previous-hash assignment -/

/-- C2: `MineBlock` assigns the new block's `PreviousHash` from the tip
block's `MerkleRoot` field, not from its `Hash` field.  On a chain
whose tip has `Hash = [65]` and `MerkleRoot = [1, 2]`, the block the
miner builds carries `PreviousHash = [1, 2] ≠ [65]`, diverging from the
claim (and from the repository's own `TestIntegration_MineBlock`
assertion that `PreviousHash` equals the tip's `Hash`). -/
theorem claim_C2_prevhash_divergence :
    (mineBlockBuild (fun l => [l.length % 256])
        ⟨[⟨⟨GENESIS, 5, 0, [1, 2], 0, [], [65]⟩, []⟩],
         [([65], ⟨⟨GENESIS, 5, 0, [1, 2], 0, [], [65]⟩, []⟩)], []⟩
        [⟨[7], [], [], [109], [], 0⟩] 9).header.previousHash = [1, 2]
    ∧ ([1, 2] : Bytes) ≠
        (⟨⟨GENESIS, 5, 0, [1, 2], 0, [], [65]⟩, []⟩ : Block).header.hash := by
  exact ⟨by decide, by decide⟩

/-! ### C1, C3, C5 — counterexamples on concrete chain states -/

/-- C1 counterexample: adding a genesis block with hash `[65]` to the
fresh chain succeeds, yet `HasBlock` applied to the lowercase-hex
encoding `"41"` of that hash returns false — `ByHash` is keyed by the
raw hash bytes, not by their hex encoding. -/
theorem claim_C1_counterexample :
    (addBlock newBlockchain (mkB [65] [99]) 5).map
        (fun s => hasBlock s (toHex (mkB [65] [99]).header.hash)) = .ok false
    ∧ (addBlock newBlockchain (mkB [65] [99]) 5).map
        (fun s => hasBlock s (mkB [65] [99]).header.hash) = .ok true := by
  exact ⟨rfl, rfl⟩

/-- C3 counterexample: a block whose ancestor path is fully resolvable
(its `PreviousHash` is the GENESIS sentinel) but whose hash duplicates
the main-chain block is rejected with a duplicate error — it is not
stored in the orphan pool as the claim requires for an equal-length
candidate. -/
theorem claim_C3_counterexample :
    tryFormChain chain1 (mkB [65] GENESIS) = some [mkB [65] GENESIS]
    ∧ addBlock chain1 (mkB [65] GENESIS) 9 = .error .duplicateBlock
    ∧ (chain1.blocks.length < [mkB [65] GENESIS].length) = False := by
  exact ⟨by decide, rfl, by decide⟩

/-- C5 counterexample: on a two-block chain, a non-attaching block
whose `PreviousHash` is the GENESIS sentinel — a value unknown to both
the main-chain index and the orphan pool — is accepted into the orphan
pool rather than rejected with an unknown-ancestor error. -/
theorem claim_C5_counterexample :
    lookupA chain2.byHash GENESIS = none
    ∧ lookupA chain2.orphanBlocks GENESIS = none
    ∧ (mkB [67] GENESIS).header.previousHash
        ≠ (chain2.blocks.getLastD blockZero).header.hash
    ∧ (addBlock chain2 (mkB [67] GENESIS) 7).isOk = true := by
  exact ⟨by decide, by decide, by decide, by decide⟩

/-! ### Association-list lemmas -/

theorem lookupA_mem {α : Type} :
    ∀ {l : List (Bytes × α)} {k : Bytes} {v : α},
      lookupA l k = some v → (k, v) ∈ l
  | [], k, v, hl => by simp [lookupA] at hl
  | (k', v') :: t, k, v, hl => by
      by_cases hk : k' = k
      · rw [lookupA, if_pos hk] at hl
        injection hl with hv
        subst hk; subst hv
        exact List.mem_cons_self _ _
      · rw [lookupA, if_neg hk] at hl
        exact List.mem_cons_of_mem _ (lookupA_mem hl)

theorem lookupA_insertA_self {α : Type} :
    ∀ (l : List (Bytes × α)) (k : Bytes) (v : α),
      lookupA (insertA l k v) k = some v
  | [], k, v => by simp [insertA, lookupA]
  | (k', v') :: t, k, v => by
      by_cases hk : k' = k
      · rw [insertA, if_pos hk, lookupA, if_pos rfl]
      · rw [insertA, if_neg hk, lookupA, if_neg hk]
        exact lookupA_insertA_self t k v

theorem KeysOk_nil : KeysOk [] := by
  intro e he; simp at he

theorem KeysOk_insertA {l : List (Bytes × Block)} {k : Bytes} {v : Block}
    (hl : KeysOk l) (hv : v.header.hash = k) : KeysOk (insertA l k v) := by
  induction l with
  | nil =>
      intro e he
      simp only [insertA, List.mem_singleton] at he
      subst he; exact hv
  | cons p t ih =>
      intro e he
      by_cases hk : p.1 = k
      · rw [insertA, if_pos hk] at he
        rcases List.mem_cons.mp he with rfl | ht
        · exact hv
        · exact hl e (List.mem_cons_of_mem _ ht)
      · rw [insertA, if_neg hk] at he
        rcases List.mem_cons.mp he with rfl | ht
        · exact hl _ (List.mem_cons_self _ _)
        · exact ih (fun e' he' => hl e' (List.mem_cons_of_mem _ he')) _ ht

theorem KeysOk_removeA {l : List (Bytes × Block)} {k : Bytes}
    (hl : KeysOk l) : KeysOk (removeA l k) := by
  induction l with
  | nil => intro e he; simp [removeA] at he
  | cons p t ih =>
      intro e he
      by_cases hk : p.1 = k
      · rw [removeA, if_pos hk] at he
        exact hl e (List.mem_cons_of_mem _ he)
      · rw [removeA, if_neg hk] at he
        rcases List.mem_cons.mp he with rfl | ht
        · exact hl _ (List.mem_cons_self _ _)
        · exact ih (fun e' he' => hl e' (List.mem_cons_of_mem _ he')) _ ht

theorem KeysOk_lookup {l : List (Bytes × Block)} {k : Bytes} {v : Block}
    (hl : KeysOk l) (hv : lookupA l k = some v) : v.header.hash = k :=
  hl (k, v) (lookupA_mem hv)

theorem findBlockByHash_hash {bc : Blockchain} {k : Bytes} {b : Block}
    (h1 : KeysOk bc.byHash) (h2 : KeysOk bc.orphanBlocks)
    (hf : findBlockByHash bc k = some b) : b.header.hash = k := by
  rw [findBlockByHash] at hf
  cases hh : lookupA bc.byHash k with
  | some w =>
      rw [hh] at hf
      injection hf with hw
      subst hw
      exact KeysOk_lookup h1 hh
  | none =>
      rw [hh] at hf
      exact KeysOk_lookup h2 hf

/-! ### Linkage lemmas -/

theorem linkedB_cons_cons {a b : Block} {t : List Block} :
    linkedB (a :: b :: t) = true ↔
      (b.header.previousHash = a.header.hash ∧ linkedB (b :: t) = true) := by
  simp [linkedB]

theorem linkedB_tail {a : Block} {t : List Block}
    (h : linkedB (a :: t) = true) : linkedB t = true := by
  cases t with
  | nil => rfl
  | cons b t' => exact (linkedB_cons_cons.mp h).2

theorem linkedB_get :
    ∀ {l : List Block}, linkedB l = true →
      ∀ i (hi : i + 1 < l.length),
        (l.get ⟨i + 1, hi⟩).header.previousHash
          = (l.get ⟨i, by omega⟩).header.hash := by
  intro l
  induction l with
  | nil => intro _ i hi; simp at hi
  | cons a t ih =>
      intro hl i hi
      cases t with
      | nil => simp at hi
      | cons b t' =>
          cases i with
          | zero => exact (linkedB_cons_cons.mp hl).1
          | succ j =>
              have hl' := (linkedB_cons_cons.mp hl).2
              have hj : j + 1 < (b :: t').length := by
                simpa using Nat.lt_of_succ_lt_succ hi
              exact ih hl' j hj

theorem linkedB_singleton (b : Block) : linkedB [b] = true := rfl

theorem linkedB_append_single :
    ∀ {l : List Block} {x : Block}, linkedB l = true →
      (l = [] ∨ x.header.previousHash = (l.getLastD blockZero).header.hash) →
      linkedB (l ++ [x]) = true := by
  intro l
  induction l with
  | nil => intro x _ _; rfl
  | cons a t ih =>
      intro x hl hx
      rcases hx with hx | hx
      · simp at hx
      cases t with
      | nil =>
          simp only [List.getLastD] at hx
          simp only [List.cons_append, List.nil_append]
          exact linkedB_cons_cons.mpr ⟨hx, rfl⟩
      | cons b t' =>
          have hstep := (linkedB_cons_cons.mp hl).1
          have htail := (linkedB_cons_cons.mp hl).2
          have hlast : (b :: t').getLastD blockZero
              = ((a :: b :: t').getLastD blockZero) := by
            simp [List.getLastD_cons]
          simp only [List.cons_append]
          refine linkedB_cons_cons.mpr ⟨hstep, ?_⟩
          exact ih htail (Or.inr (by rw [hlast]; exact hx))

/-! ### Properties of the backward walk and of reorganisation -/

theorem walkBack_props {bc : Blockchain}
    (h1 : KeysOk bc.byHash) (h2 : KeysOk bc.orphanBlocks) :
    ∀ (fuel : Nat) (cur : Block) (acc out : List Block),
      walkBack bc fuel cur acc = some out →
      acc.head? = some cur → linkedB acc = true →
      linkedB out = true ∧ genesisPrevB out = true
        ∧ out.getLast? = acc.getLast?
  | 0, cur, acc, out, hw, _, _ => by simp [walkBack] at hw
  | fuel + 1, cur, acc, out, hw, hhead, hlink => by
      rw [walkBack] at hw
      by_cases hg : cur.header.previousHash = GENESIS
      · rw [if_pos hg] at hw
        injection hw with hout
        subst hout
        cases acc with
        | nil => simp at hhead
        | cons a rest =>
            have ha : a = cur := by
              simpa using hhead
            subst ha
            refine ⟨hlink, ?_, rfl⟩
            simp [genesisPrevB, hg]
      · rw [if_neg hg] at hw
        cases hf : findBlockByHash bc cur.header.previousHash with
        | none => rw [hf] at hw; simp at hw
        | some prev =>
            rw [hf] at hw
            cases acc with
            | nil => simp at hhead
            | cons a rest =>
                have ha : a = cur := by
                  simpa using hhead
                subst ha
                have hph : prev.header.hash = a.header.previousHash :=
                  findBlockByHash_hash h1 h2 hf
                have hlink' : linkedB (prev :: a :: rest) = true :=
                  linkedB_cons_cons.mpr ⟨hph.symm, hlink⟩
                have hw' : walkBack bc fuel prev (prev :: a :: rest)
                    = some out := hw
                have hres := walkBack_props h1 h2 fuel prev
                  (prev :: a :: rest) out hw' rfl hlink'
                refine ⟨hres.1, hres.2.1, ?_⟩
                rw [hres.2.2, List.getLast?_cons_cons]

theorem tryFormChain_props {bc : Blockchain} {b : Block} {c : List Block}
    (h1 : KeysOk bc.byHash) (h2 : KeysOk bc.orphanBlocks)
    (hf : tryFormChain bc b = some c) :
    linkedB c = true ∧ genesisPrevB c = true ∧ c.getLast? = some b := by
  have := walkBack_props h1 h2
    (bc.byHash.length + bc.orphanBlocks.length + 1) b [b] c hf rfl rfl
  exact ⟨this.1, this.2.1, by rw [this.2.2]; rfl⟩

theorem KeysOk_foldl_insertA :
    ∀ (chain : List Block) (m : List (Bytes × Block)), KeysOk m →
      KeysOk (chain.foldl (fun m blk => insertA m blk.header.hash blk) m)
  | [], m, hm => hm
  | blk :: t, m, hm => by
      rw [List.foldl_cons]
      exact KeysOk_foldl_insertA t _ (KeysOk_insertA hm rfl)

theorem reorganizeChain_Inv4 {bc : Blockchain} {c : List Block}
    (hinv : Inv4 bc) (hl : linkedB c = true) (hg : genesisPrevB c = true) :
    Inv4 (reorganizeChain bc c) := by
  refine ⟨KeysOk_foldl_insertA c [] KeysOk_nil, hinv.2.1, hl, hg⟩

theorem orphanPass_Inv4 :
    ∀ (pending : List (Bytes × Block)) (bc : Blockchain) (prog : Bool),
      Inv4 bc → Inv4 (orphanPass bc pending prog).1
  | [], bc, prog, hinv => hinv
  | (hash, orphan) :: rest, bc, prog, hinv => by
      rw [orphanPass]
      split
      · exact orphanPass_Inv4 rest bc prog hinv
      · rename_i newChain hf
        by_cases hlen : bc.blocks.length < newChain.length
        · rw [if_pos hlen]
          obtain ⟨hl, hg, _⟩ := tryFormChain_props hinv.1 hinv.2.1 hf
          refine orphanPass_Inv4 rest _ true ?_
          have hre := reorganizeChain_Inv4 hinv hl hg
          exact ⟨hre.1, KeysOk_removeA hre.2.1, hre.2.2.1, hre.2.2.2⟩
        · rw [if_neg hlen]
          exact orphanPass_Inv4 rest bc prog hinv

theorem processOrphansFuel_Inv4 :
    ∀ (fuel : Nat) (bc : Blockchain), Inv4 bc →
      Inv4 (processOrphansFuel fuel bc)
  | 0, bc, hinv => hinv
  | fuel + 1, bc, hinv => by
      rw [processOrphansFuel]
      have hp := orphanPass_Inv4 bc.orphanBlocks bc false hinv
      rcases hpass : orphanPass bc bc.orphanBlocks false with ⟨bc', prog⟩
      rw [hpass] at hp
      cases prog
      · exact hp
      · exact processOrphansFuel_Inv4 fuel bc' hp

theorem processOrphans_Inv4 {bc : Blockchain} (hinv : Inv4 bc) :
    Inv4 (processOrphans bc) :=
  processOrphansFuel_Inv4 _ bc hinv

theorem genesisPrevB_append {l : List Block} (x : Block) (hl : l ≠ []) :
    genesisPrevB (l ++ [x]) = genesisPrevB l := by
  cases l with
  | nil => exact absurd rfl hl
  | cons a t => rfl

theorem addBlock_Inv4 {bc : Blockchain} {b : Block} {now : Int}
    {bc' : Blockchain} (hinv : Inv4 bc)
    (hadd : addBlock bc b now = .ok bc') : Inv4 bc' := by
  rw [addBlock] at hadd
  by_cases hd1 : bc.blocks.any (fun eb => eb.header.hash = b.header.hash) = true
  · rw [if_pos hd1] at hadd; simp at hadd
  rw [if_neg hd1] at hadd
  by_cases hd2 :
      bc.orphanBlocks.any (fun o => o.2.header.hash = b.header.hash) = true
  · rw [if_pos hd2] at hadd; simp at hadd
  rw [if_neg hd2] at hadd
  by_cases hz : bc.blocks.length = 0
  · rw [if_pos hz] at hadd
    injection hadd with hbc'
    subst hbc'
    refine processOrphans_Inv4 ⟨KeysOk_insertA hinv.1 rfl, hinv.2.1, rfl, ?_⟩
    simp [genesisPrevB, stampGenesisB]
  rw [if_neg hz] at hadd
  by_cases htip :
      b.header.previousHash = (bc.blocks.getLastD blockZero).header.hash
  · rw [if_pos htip] at hadd
    injection hadd with hbc'
    subst hbc'
    refine processOrphans_Inv4 ⟨KeysOk_insertA hinv.1 rfl, hinv.2.1, ?_, ?_⟩
    · refine linkedB_append_single hinv.2.2.1 (Or.inr ?_)
      exact htip
    · rw [genesisPrevB_append _ (by
        intro hnil
        exact hz (by rw [hnil]; rfl))]
      exact hinv.2.2.2
  rw [if_neg htip] at hadd
  split at hadd
  · rename_i hf
    by_cases hu : (findBlockByHash bc b.header.previousHash).isNone = true
    · rw [if_pos hu] at hadd; simp at hadd
    · rw [if_neg hu] at hadd
      injection hadd with hbc'
      subst hbc'
      exact ⟨hinv.1, KeysOk_insertA hinv.2.1 rfl, hinv.2.2.1, hinv.2.2.2⟩
  · rename_i newChain hf
    obtain ⟨hl, hg, _⟩ := tryFormChain_props hinv.1 hinv.2.1 hf
    by_cases hlen : bc.blocks.length < newChain.length
    · rw [if_pos hlen] at hadd
      injection hadd with hbc'
      subst hbc'
      exact processOrphans_Inv4 (reorganizeChain_Inv4 hinv hl hg)
    · rw [if_neg hlen] at hadd
      injection hadd with hbc'
      subst hbc'
      refine processOrphans_Inv4
        ⟨hinv.1, KeysOk_insertA hinv.2.1 rfl, hinv.2.2.1, hinv.2.2.2⟩

theorem reachable_Inv4 {bc : Blockchain} (hr : Reachable bc) : Inv4 bc := by
  induction hr with
  | init => exact ⟨KeysOk_nil, KeysOk_nil, rfl, rfl⟩
  | step bc0 b now bc' _ hadd ih => exact addBlock_Inv4 ih hadd

/-! ### C4 — the linkage invariant over all reachable states -/

/-- C4: in every state reachable by any sequence of `AddBlock` calls
(reorganisations and orphan resolution included), every main-chain
block at a height `h > 0` carries the `Hash` of the block at height
`h - 1` as its `PreviousHash`. -/
theorem claim_C4_linkage_invariant (bc : Blockchain) (hr : Reachable bc)
    (h : Nat) (h0 : 0 < h) (hlen : h < bc.blocks.length) :
    (bc.blocks.get ⟨h, hlen⟩).header.previousHash
      = (bc.blocks.get ⟨h - 1, by omega⟩).header.hash := by
  have hlink := (reachable_Inv4 hr).2.2.1
  have hi : (h - 1) + 1 < bc.blocks.length := by omega
  have := linkedB_get hlink (h - 1) hi
  have hidx : (⟨(h - 1) + 1, hi⟩ : Fin bc.blocks.length) = ⟨h, hlen⟩ := by
    apply Fin.ext
    simp
    omega
  rw [hidx] at this
  exact this

/-- C4 witness: the concrete two-block state reached by adding a
genesis block and one tip extension satisfies the linkage equation at
height 1. -/
theorem claim_C4_linkage_invariant_witness :
    (chain2.blocks.get ⟨1, by decide⟩).header.previousHash
      = (chain2.blocks.get ⟨0, by decide⟩).header.hash := by
  have r1 : Reachable chain1 :=
    Reachable.step newBlockchain (mkB [65] [99]) 5 chain1 Reachable.init rfl
  have r2 : Reachable chain2 :=
    Reachable.step chain1 (mkB [66] [65]) 6 chain2 r1 rfl
  exact claim_C4_linkage_invariant chain2 r2 1 (by decide) (by decide)

/-! ### C5 — error classification and atomicity of `AddBlock` -/

/-- C5 amended: `AddBlock` classifies inputs distinctly and mutates
nothing on failure (the embedding returns an error without a successor
state exactly where the Go code returns before its first write).  A
block whose hash duplicates a main-chain (resp. orphan) block fails
with the duplicate (resp. duplicate-orphan) error; a non-attaching
block whose `PreviousHash` is neither the GENESIS sentinel nor known
to either pool fails with the unknown-ancestor error; a non-attaching
block whose `PreviousHash` is known but whose full ancestor chain
cannot be formed is admitted to the orphan pool — with no other state
change — and reported as success. -/
theorem claim_C5_error_classification (bc : Blockchain) (b : Block)
    (now : Int) :
    ((bc.blocks.any fun eb => eb.header.hash = b.header.hash) = true →
       addBlock bc b now = .error .duplicateBlock)
    ∧ ((bc.blocks.any fun eb => eb.header.hash = b.header.hash) = false →
       (bc.orphanBlocks.any fun o => o.2.header.hash = b.header.hash) = true →
       addBlock bc b now = .error .duplicateOrphan)
    ∧ ((bc.blocks.any fun eb => eb.header.hash = b.header.hash) = false →
       (bc.orphanBlocks.any fun o => o.2.header.hash = b.header.hash) = false →
       bc.blocks.length ≠ 0 →
       b.header.previousHash ≠ (bc.blocks.getLastD blockZero).header.hash →
       b.header.previousHash ≠ GENESIS →
       findBlockByHash bc b.header.previousHash = none →
       addBlock bc b now = .error .unknownAncestor)
    ∧ ((bc.blocks.any fun eb => eb.header.hash = b.header.hash) = false →
       (bc.orphanBlocks.any fun o => o.2.header.hash = b.header.hash) = false →
       bc.blocks.length ≠ 0 →
       b.header.previousHash ≠ (bc.blocks.getLastD blockZero).header.hash →
       (findBlockByHash bc b.header.previousHash).isSome = true →
       tryFormChain bc b = none →
       addBlock bc b now =
         .ok ⟨bc.blocks, bc.byHash,
              insertA bc.orphanBlocks b.header.hash b⟩) := by
  refine ⟨?_, ?_, ?_, ?_⟩
  · intro hd1
    rw [addBlock, if_pos hd1]
  · intro hd1 hd2
    rw [addBlock, if_neg (by simp [hd1]), if_pos hd2]
  · intro hd1 hd2 hz htip hgen hfind
    have hchain : tryFormChain bc b = none := by
      rw [tryFormChain, walkBack, if_neg hgen, hfind]
    rw [addBlock, if_neg (by simp [hd1]), if_neg (by simp [hd2]),
      if_neg hz, if_neg htip, hchain]
    rw [if_pos (by simp [hfind])]
  · intro hd1 hd2 hz htip hfind hchain
    rw [addBlock, if_neg (by simp [hd1]), if_neg (by simp [hd2]),
      if_neg hz, if_neg htip, hchain]
    rw [if_neg (by
      intro hcon
      rw [Option.isNone_iff_eq_none] at hcon
      rw [hcon] at hfind
      simp at hfind)]

/-- C5 witness: each classification realised on a concrete state — a
main-chain duplicate, an orphan duplicate, an unknown ancestor, and a
known-ancestor orphan admission. -/
theorem claim_C5_error_classification_witness :
    addBlock chain1 (mkB [65] GENESIS) 9 = .error .duplicateBlock
    ∧ addBlock ⟨chain2.blocks, chain2.byHash, [([67], mkB [67] GENESIS)]⟩
        (mkB [67] [1]) 9 = .error .duplicateOrphan
    ∧ addBlock chain2 (mkB [68] [1]) 9 = .error .unknownAncestor
    ∧ addBlock ⟨chain2.blocks, chain2.byHash, [([70], mkB [70] [2])]⟩
        (mkB [71] [70]) 9 =
        .ok ⟨chain2.blocks, chain2.byHash,
             insertA [([70], mkB [70] [2])] [71] (mkB [71] [70])⟩ := by
  refine ⟨?_, ?_, ?_, ?_⟩
  · exact (claim_C5_error_classification chain1 (mkB [65] GENESIS) 9).1
      (by decide)
  · exact (claim_C5_error_classification
      ⟨chain2.blocks, chain2.byHash, [([67], mkB [67] GENESIS)]⟩
      (mkB [67] [1]) 9).2.1 (by decide) (by decide)
  · exact (claim_C5_error_classification chain2 (mkB [68] [1]) 9).2.2.1
      (by decide) (by decide) (by decide) (by decide) (by decide) (by decide)
  · exact (claim_C5_error_classification
      ⟨chain2.blocks, chain2.byHash, [([70], mkB [70] [2])]⟩
      (mkB [71] [70]) 9).2.2.2
      (by decide) (by decide) (by decide) (by decide) (by decide) (by decide)

/-! ### The backward walk on an orphan-free, well-formed main chain -/

theorem find_empty_orphans {bc : Blockchain} (horph : bc.orphanBlocks = [])
    (k : Bytes) : findBlockByHash bc k = lookupA bc.byHash k := by
  rw [findBlockByHash]
  cases h : lookupA bc.byHash k with
  | some w => rfl
  | none => rw [horph]; rfl

theorem lookup_map_get {l : List Block} (hnd : noDupB l = true) :
    ∀ (i : Nat) (hi : i < l.length),
      lookupA (l.map fun blk => (blk.header.hash, blk))
          (l.get ⟨i, hi⟩).header.hash
        = some (l.get ⟨i, hi⟩) := by
  induction l with
  | nil => intro i hi; simp at hi
  | cons b t ih =>
      intro i hi
      have hnd' : t.all (fun x => x.header.hash != b.header.hash) = true
          ∧ noDupB t = true := by
        simpa [noDupB] using hnd
      cases i with
      | zero => simp [lookupA]
      | succ j =>
          have hj : j < t.length := by simpa using Nat.lt_of_succ_lt_succ hi
          have hne : (t.get ⟨j, hj⟩).header.hash ≠ b.header.hash := by
            have := List.all_eq_true.mp hnd'.1 _ (List.get_mem t _ hj)
            simpa using this
          simp only [List.map_cons, List.get_cons_succ, lookupA]
          rw [if_neg (fun hcon => hne hcon.symm)]
          exact ih hnd'.2 j hj

theorem lookup_map_mem {k : Bytes} {w : Block} :
    ∀ {l : List Block},
      lookupA (l.map fun blk => (blk.header.hash, blk)) k = some w →
      ∃ (i : Nat) (hi : i < l.length),
        l.get ⟨i, hi⟩ = w ∧ w.header.hash = k
  | [], hl => by simp [lookupA] at hl
  | b :: t, hl => by
      rw [List.map_cons, lookupA] at hl
      by_cases hk : b.header.hash = k
      · rw [if_pos hk] at hl
        injection hl with hw
        subst hw
        exact ⟨0, by simp, rfl, hk⟩
      · rw [if_neg hk] at hl
        obtain ⟨i, hi, hget, hkey⟩ := lookup_map_mem hl
        exact ⟨i + 1, by simpa using Nat.succ_lt_succ hi, hget, hkey⟩

theorem noDupB_get_inj :
    ∀ {l : List Block}, noDupB l = true →
      ∀ {i j : Nat} (hi : i < l.length) (hj : j < l.length),
        (l.get ⟨i, hi⟩).header.hash = (l.get ⟨j, hj⟩).header.hash → i = j := by
  intro l
  induction l with
  | nil => intro _ i j hi; simp at hi
  | cons b t ih =>
      intro hnd i j hi hj heq
      have hnd' : t.all (fun x => x.header.hash != b.header.hash) = true
          ∧ noDupB t = true := by
        simpa [noDupB] using hnd
      cases i with
      | zero =>
          cases j with
          | zero => rfl
          | succ j' =>
              have hj' : j' < t.length := by simpa using Nat.lt_of_succ_lt_succ hj
              have hne := List.all_eq_true.mp hnd'.1 _ (List.get_mem t _ hj')
              simp only [List.get_cons_zero, List.get_cons_succ] at heq
              simp only [bne_iff_ne, ne_eq] at hne
              exact absurd heq.symm hne
      | succ i' =>
          cases j with
          | zero =>
              have hi' : i' < t.length := by simpa using Nat.lt_of_succ_lt_succ hi
              have hne := List.all_eq_true.mp hnd'.1 _ (List.get_mem t _ hi')
              simp only [List.get_cons_zero, List.get_cons_succ] at heq
              simp only [bne_iff_ne, ne_eq] at hne
              exact absurd heq hne
          | succ j' =>
              have hi' : i' < t.length := by simpa using Nat.lt_of_succ_lt_succ hi
              have hj' : j' < t.length := by simpa using Nat.lt_of_succ_lt_succ hj
              simp only [List.get_cons_succ] at heq
              exact congrArg Nat.succ (ih hnd'.2 hi' hj' heq)

theorem genesisPrevB_get0 {l : List Block} (hg : genesisPrevB l = true)
    (hl : 0 < l.length) :
    (l.get ⟨0, hl⟩).header.previousHash = GENESIS := by
  cases l with
  | nil => simp at hl
  | cons b t => simpa [genesisPrevB] using hg

theorem all_get_ne_GENESIS {l : List Block}
    (h : l.all (fun blk => blk.header.hash != GENESIS) = true)
    (i : Nat) (hi : i < l.length) :
    (l.get ⟨i, hi⟩).header.hash ≠ GENESIS := by
  have := List.all_eq_true.mp h _ (List.get_mem l _ hi)
  simpa using this

theorem take_one_get {l : List Block} (hl : 0 < l.length) :
    l.take 1 = [l.get ⟨0, hl⟩] := by
  cases l with
  | nil => simp at hl
  | cons b t => rfl

theorem getLastD_eq_get :
    ∀ (l : List Block) (d : Block) (hlen : l.length - 1 < l.length),
      l.getLastD d = l.get ⟨l.length - 1, hlen⟩
  | [], d, hlen => by simp at hlen
  | [x], d, hlen => rfl
  | x :: y :: t, d, hlen => by
      have hlen' : (y :: t).length - 1 < (y :: t).length := by simp
      rw [List.getLastD_cons, getLastD_eq_get (y :: t) x hlen']
      apply Eq.symm
      have hidx : (x :: y :: t).length - 1 = ((y :: t).length - 1) + 1 := by
        simp
      have hfin : (⟨(x :: y :: t).length - 1, hlen⟩
            : Fin (x :: y :: t).length)
          = ⟨((y :: t).length - 1) + 1, by simp⟩ := Fin.ext hidx
      rw [congrArg (x :: y :: t).get hfin]
      rfl

theorem walkBack_main {bc : Blockchain}
    (hByHash : bc.byHash = bc.blocks.map fun blk => (blk.header.hash, blk))
    (horph : bc.orphanBlocks = []) (hlink : linkedB bc.blocks = true)
    (hgen : genesisPrevB bc.blocks = true) (hnd : noDupB bc.blocks = true)
    (hngen : bc.blocks.all (fun blk => blk.header.hash != GENESIS) = true) :
    ∀ (h : Nat),
      ∀ (hh : h < bc.blocks.length) (acc : List Block) (fuel : Nat),
        h + 1 ≤ fuel →
        walkBack bc fuel (bc.blocks.get ⟨h, hh⟩)
            (bc.blocks.get ⟨h, hh⟩ :: acc)
          = some (bc.blocks.take (h + 1) ++ acc) := by
  intro h
  induction h with
  | zero =>
      intro hh acc fuel hfuel
      cases fuel with
      | zero => omega
      | succ f =>
          rw [walkBack, if_pos (genesisPrevB_get0 hgen hh)]
          rw [take_one_get hh]
          rfl
  | succ j ih =>
      intro hh acc fuel hfuel
      cases fuel with
      | zero => omega
      | succ f =>
          have hj : j < bc.blocks.length := by omega
          have hj1 : j + 1 < bc.blocks.length := hh
          have hprev : (bc.blocks.get ⟨j + 1, hh⟩).header.previousHash
              = (bc.blocks.get ⟨j, hj⟩).header.hash :=
            linkedB_get hlink j hj1
          have hnotgen : ¬ (bc.blocks.get ⟨j + 1, hh⟩).header.previousHash
              = GENESIS := by
            rw [hprev]
            exact all_get_ne_GENESIS hngen j hj
          rw [walkBack, if_neg hnotgen]
          have hfind : findBlockByHash bc
              (bc.blocks.get ⟨j + 1, hh⟩).header.previousHash
              = some (bc.blocks.get ⟨j, hj⟩) := by
            rw [hprev, find_empty_orphans horph, hByHash]
            exact lookup_map_get hnd j hj
          rw [hfind]
          have hrec := ih hj (bc.blocks.get ⟨j + 1, hh⟩ :: acc) f (by omega)
          have hstep : bc.blocks.take (j + 1)
                ++ (bc.blocks.get ⟨j + 1, hh⟩ :: acc)
              = bc.blocks.take (j + 2) ++ acc := by
            have htake : bc.blocks.take (j + 2)
                = bc.blocks.take (j + 1) ++ [bc.blocks.get ⟨j + 1, hh⟩] := by
              rw [List.take_succ]
              congr 1
              rw [List.getElem?_eq_getElem hh]
              rfl
            rw [htake, List.append_assoc]
            rfl
          rw [← hstep]
          exact hrec

theorem walkBack_mono {bc : Blockchain} :
    ∀ (fuel fuel' : Nat) (cur : Block) (acc out : List Block),
      fuel ≤ fuel' → walkBack bc fuel cur acc = some out →
      walkBack bc fuel' cur acc = some out
  | 0, _, cur, acc, out, _, hw => by simp [walkBack] at hw
  | fuel + 1, 0, cur, acc, out, hle, hw => by omega
  | fuel + 1, fuel' + 1, cur, acc, out, hle, hw => by
      rw [walkBack] at hw ⊢
      by_cases hg : cur.header.previousHash = GENESIS
      · rw [if_pos hg] at hw ⊢; exact hw
      · rw [if_neg hg] at hw ⊢
        cases hf : findBlockByHash bc cur.header.previousHash with
        | none => rw [hf] at hw; simp at hw
        | some prev =>
            rw [hf] at hw
            have hw' : walkBack bc fuel prev (prev :: acc) = some out := hw
            exact walkBack_mono fuel fuel' prev (prev :: acc) out
              (by omega) hw'

theorem walkBack_orphans_irrelevant (bc1 bc2 : Blockchain)
    (hby : bc1.byHash = bc2.byHash) (horph : bc1.orphanBlocks = []) :
    ∀ (fuel : Nat) (cur : Block) (acc out : List Block),
      walkBack bc1 fuel cur acc = some out →
      walkBack bc2 fuel cur acc = some out
  | 0, cur, acc, out, hw => by simp [walkBack] at hw
  | fuel + 1, cur, acc, out, hw => by
      rw [walkBack] at hw ⊢
      by_cases hg : cur.header.previousHash = GENESIS
      · rw [if_pos hg] at hw ⊢; exact hw
      · rw [if_neg hg] at hw ⊢
        cases hf : findBlockByHash bc1 cur.header.previousHash with
        | none => rw [hf] at hw; simp at hw
        | some prev =>
            rw [hf] at hw
            have hlk : lookupA bc1.byHash cur.header.previousHash
                = some prev := by
              rw [← find_empty_orphans horph]
              exact hf
            have hf2 : findBlockByHash bc2 cur.header.previousHash
                = some prev := by
              rw [findBlockByHash, ← hby, hlk]
            rw [hf2]
            have hw' : walkBack bc1 fuel prev (prev :: acc) = some out := hw
            exact walkBack_orphans_irrelevant bc1 bc2 hby horph fuel prev
              (prev :: acc) out hw'

/-- On an orphan-free, well-formed chain, a formed candidate is either
the single block `b` rooted directly at the sentinel, or the main-chain
prefix up to the resolved parent followed by `b`. -/
theorem tryFormChain_main {bc : Blockchain} {b : Block} {c : List Block}
    (hinv : ChainInv bc) (horph : bc.orphanBlocks = [])
    (hf : tryFormChain bc b = some c) :
    (b.header.previousHash = GENESIS ∧ c = [b])
    ∨ ∃ (h : Nat) (hh : h < bc.blocks.length),
        (bc.blocks.get ⟨h, hh⟩).header.hash = b.header.previousHash
        ∧ c = bc.blocks.take (h + 1) ++ [b] := by
  obtain ⟨hByHash, hlink, hgen, hnd, hngen⟩ := hinv
  have hBlen : bc.byHash.length = bc.blocks.length := by
    rw [hByHash]; simp
  rw [tryFormChain, walkBack] at hf
  by_cases hg : b.header.previousHash = GENESIS
  · rw [if_pos hg] at hf
    injection hf with hc
    exact Or.inl ⟨hg, hc.symm⟩
  · rw [if_neg hg] at hf
    cases hfind : findBlockByHash bc b.header.previousHash with
    | none => rw [hfind] at hf; simp at hf
    | some w =>
        rw [hfind] at hf
        have hw : walkBack bc (bc.byHash.length + bc.orphanBlocks.length) w
            (w :: [b]) = some c := hf
        have hlk : lookupA bc.byHash b.header.previousHash = some w := by
          rw [← find_empty_orphans horph]; exact hfind
        rw [hByHash] at hlk
        obtain ⟨i, hi, hget, hkey⟩ := lookup_map_mem hlk
        subst hget
        have hmain := walkBack_main hByHash horph hlink hgen hnd hngen i hi
          [b] (bc.byHash.length + bc.orphanBlocks.length)
          (by rw [hBlen, horph]; simp; omega)
        rw [hmain] at hw
        injection hw with hc
        exact Or.inr ⟨i, hi, hkey, hc.symm⟩

/-! ### Orphan-resolution fixed points -/

theorem processOrphans_empty {bc : Blockchain}
    (horph : bc.orphanBlocks = []) : processOrphans bc = bc := by
  rw [processOrphans, horph, processOrphansFuel, horph, orphanPass]

theorem processOrphans_empty_mk (B : List Block) (H : List (Bytes × Block)) :
    processOrphans ⟨B, H, []⟩ = ⟨B, H, []⟩ :=
  processOrphans_empty rfl

theorem processOrphans_single_stuck {bc2 : Blockchain} {k : Bytes}
    {b : Block} {c : List Block} (horph2 : bc2.orphanBlocks = [(k, b)])
    (hf : tryFormChain bc2 b = some c)
    (hlen : ¬ bc2.blocks.length < c.length) :
    processOrphans bc2 = bc2 := by
  have hpass : orphanPass bc2 [(k, b)] false = (bc2, false) := by
    rw [orphanPass]
    simp only [hf]
    rw [if_neg hlen, orphanPass]
  rw [processOrphans, horph2, processOrphansFuel, horph2, hpass]

/-- Storing a freshly rejected fork block as the only orphan of an
orphan-free chain does not let `processOrphans` make progress: the
re-formed candidate is the same chain, still not longer. -/
theorem processOrphans_store_stuck {bc : Blockchain} {b : Block}
    {c : List Block} (horph : bc.orphanBlocks = [])
    (hf : tryFormChain bc b = some c)
    (hlen : ¬ bc.blocks.length < c.length) :
    processOrphans ⟨bc.blocks, bc.byHash, [(b.header.hash, b)]⟩
      = ⟨bc.blocks, bc.byHash, [(b.header.hash, b)]⟩ := by
  have hw : walkBack bc (bc.byHash.length + bc.orphanBlocks.length + 1) b [b]
      = some c := hf
  have hw2 : walkBack bc (bc.byHash.length + 1 + 1) b [b] = some c := by
    refine walkBack_mono _ _ b [b] c ?_ hw
    rw [horph]
    simp
  have hf2 : tryFormChain ⟨bc.blocks, bc.byHash, [(b.header.hash, b)]⟩ b
      = some c :=
    walkBack_orphans_irrelevant bc
      ⟨bc.blocks, bc.byHash, [(b.header.hash, b)]⟩ rfl horph
      (bc.byHash.length + 1 + 1) b [b] c hw2
  exact processOrphans_single_stuck rfl hf2 hlen

/-! ### C1 — the postcondition of a successful `AddBlock` -/

/-- C1 amended: on a well-formed, orphan-free chain state, a successful
`AddBlock(b)` either parks `b` in the orphan pool (equal-or-shorter
fork, reported as success), or places `b` on the main chain — in that
case `HasBlock` applied to the raw bytes of `b`'s hash (not their hex
encoding) is true and `GetBlockByHeight` at the tip height returns `b`
(timestamp-stamped by the genesis or tip path, unchanged otherwise). -/
theorem claim_C1_add_postcondition (bc : Blockchain) (b : Block) (now : Int)
    (bc' : Blockchain) (hinv : ChainInv bc) (horph : bc.orphanBlocks = [])
    (hadd : addBlock bc b now = .ok bc') :
    lookupA bc'.orphanBlocks b.header.hash = some b
    ∨ (hasBlock bc' b.header.hash = true
       ∧ ∃ b2, (b2 = stampGenesisB b now ∨ b2 = stampTipB b now ∨ b2 = b)
           ∧ getBlockByHeight bc' (bc'.blocks.length - 1) = some b2) := by
  rw [addBlock] at hadd
  by_cases hd1 : (bc.blocks.any fun eb => eb.header.hash = b.header.hash) = true
  · rw [if_pos hd1] at hadd; simp at hadd
  rw [if_neg hd1] at hadd
  by_cases hd2 :
      (bc.orphanBlocks.any fun o => o.2.header.hash = b.header.hash) = true
  · rw [if_pos hd2] at hadd; simp at hadd
  rw [if_neg hd2] at hadd
  by_cases hz : bc.blocks.length = 0
  · rw [if_pos hz, horph, processOrphans_empty_mk] at hadd
    injection hadd with hbc'
    subst hbc'
    refine Or.inr ⟨?_, stampGenesisB b now, Or.inl rfl, ?_⟩
    · show (lookupA (insertA bc.byHash b.header.hash (stampGenesisB b now))
          b.header.hash).isSome = true
      rw [lookupA_insertA_self]
      rfl
    · rfl
  rw [if_neg hz] at hadd
  by_cases htip :
      b.header.previousHash = (bc.blocks.getLastD blockZero).header.hash
  · rw [if_pos htip, horph, processOrphans_empty_mk] at hadd
    injection hadd with hbc'
    subst hbc'
    refine Or.inr ⟨?_, stampTipB b now, Or.inr (Or.inl rfl), ?_⟩
    · show (lookupA (insertA bc.byHash b.header.hash (stampTipB b now))
          b.header.hash).isSome = true
      rw [lookupA_insertA_self]
      rfl
    · show getBlockByHeight
        ⟨bc.blocks ++ [stampTipB b now], _, []⟩
        ((bc.blocks ++ [stampTipB b now]).length - 1) = some (stampTipB b now)
      rw [getBlockByHeight]
      have hlen : (bc.blocks ++ [stampTipB b now]).length - 1
          = bc.blocks.length := by
        simp
      rw [hlen]
      exact List.getElem?_concat_length bc.blocks (stampTipB b now)
  rw [if_neg htip] at hadd
  split at hadd
  · by_cases hu : (findBlockByHash bc b.header.previousHash).isNone = true
    · rw [if_pos hu] at hadd; simp at hadd
    · rw [if_neg hu] at hadd
      injection hadd with hbc'
      subst hbc'
      refine Or.inl ?_
      show lookupA (insertA bc.orphanBlocks b.header.hash b) b.header.hash
        = some b
      rw [lookupA_insertA_self]
  · rename_i newChain hf
    by_cases hlen : bc.blocks.length < newChain.length
    · exfalso
      rcases tryFormChain_main hinv horph hf with ⟨_, hc⟩ | ⟨h, hh, hkey, hc⟩
      · rw [hc, List.length_singleton] at hlen
        omega
      · have hclen : newChain.length = h + 2 := by
          rw [hc]
          simp
          omega
        have htop : h = bc.blocks.length - 1 := by omega
        apply htip
        rw [getLastD_eq_get bc.blocks blockZero (by omega), ← hkey]
        have : (⟨h, hh⟩ : Fin bc.blocks.length)
            = ⟨bc.blocks.length - 1, by omega⟩ := Fin.ext htop
        rw [this]
    · rw [if_neg hlen] at hadd
      have hins : insertA bc.orphanBlocks b.header.hash b
          = [(b.header.hash, b)] := by
        rw [horph]; rfl
      rw [hins] at hadd
      rw [show ({ bc with orphanBlocks := [(b.header.hash, b)] } : Blockchain)
          = ⟨bc.blocks, bc.byHash, [(b.header.hash, b)]⟩ from rfl] at hadd
      rw [processOrphans_store_stuck horph hf hlen] at hadd
      injection hadd with hbc'
      subst hbc'
      refine Or.inl ?_
      show lookupA [(b.header.hash, b)] b.header.hash = some b
      simp [lookupA]

/-- C1 amended witness: extending the one-block chain `chain1` by the
block of hash `[66]` places it on the main chain; `HasBlock` on the
raw hash bytes holds and the tip lookup returns the stamped block. -/
theorem claim_C1_add_postcondition_witness :
    lookupA chain2.orphanBlocks (mkB [66] [65]).header.hash
        = some (mkB [66] [65])
    ∨ (hasBlock chain2 (mkB [66] [65]).header.hash = true
       ∧ ∃ b2, (b2 = stampGenesisB (mkB [66] [65]) 6
             ∨ b2 = stampTipB (mkB [66] [65]) 6 ∨ b2 = mkB [66] [65])
           ∧ getBlockByHeight chain2 (chain2.blocks.length - 1) = some b2) :=
  claim_C1_add_postcondition chain1 (mkB [66] [65]) 6 chain2
    (by refine ⟨by decide, by decide, by decide, by decide, by decide⟩)
    rfl rfl

/-! ### C3 — the reorganisation decision -/

/-- C3 amended: on a well-formed, orphan-free chain state, for a
non-duplicate block `b` whose ancestor path to the GENESIS sentinel is
fully resolvable into the candidate chain `[genesis, …, b]`:
`AddBlock(b)` replaces the main chain by that candidate (its tip
timestamp-stamped on the genesis and tip-extension paths) exactly when
the candidate is strictly longer than the current main chain; when the
candidate has equal or smaller length, the incumbent main chain is
unchanged and `b` is stored in the orphan pool. -/
theorem claim_C3_reorg_decision (bc : Blockchain) (b : Block) (now : Int)
    (candidate : List Block) (hinv : ChainInv bc)
    (horph : bc.orphanBlocks = [])
    (hfresh : (bc.blocks.any fun eb => eb.header.hash = b.header.hash) = false)
    (hform : tryFormChain bc b = some candidate) :
    (bc.blocks.length < candidate.length →
       ∃ bc' b2, addBlock bc b now = .ok bc'
         ∧ (b2 = stampGenesisB b now ∨ b2 = stampTipB b now)
         ∧ bc'.blocks = candidate.dropLast ++ [b2])
    ∧ (candidate.length ≤ bc.blocks.length →
       ∃ bc', addBlock bc b now = .ok bc'
         ∧ bc'.blocks = bc.blocks
         ∧ lookupA bc'.orphanBlocks b.header.hash = some b) := by
  have hd1 : ¬ (bc.blocks.any fun eb => eb.header.hash = b.header.hash)
      = true := by simp [hfresh]
  have hd2 : ¬ (bc.orphanBlocks.any fun o => o.2.header.hash = b.header.hash)
      = true := by simp [horph]
  rcases tryFormChain_main hinv horph hform with ⟨hgenprev, hc⟩
    | ⟨h, hh, hkey, hc⟩
  · subst hc
    constructor
    · intro hlen
      have hz : bc.blocks.length = 0 := by
        rw [List.length_singleton] at hlen
        omega
      refine ⟨⟨[stampGenesisB b now],
          insertA bc.byHash (stampGenesisB b now).header.hash
            (stampGenesisB b now), []⟩,
        stampGenesisB b now, ?_, Or.inl rfl, ?_⟩
      · rw [addBlock, if_neg hd1, if_neg hd2, if_pos hz, horph,
          processOrphans_empty_mk]
      · rfl
    · intro hle
      have hz : ¬ bc.blocks.length = 0 := by
        rw [List.length_singleton] at hle
        omega
      have htip : ¬ b.header.previousHash
          = (bc.blocks.getLastD blockZero).header.hash := by
        rw [hgenprev, getLastD_eq_get bc.blocks blockZero (by omega)]
        intro hcon
        exact all_get_ne_GENESIS hinv.2.2.2.2 _ _ hcon.symm
      have hnl : ¬ bc.blocks.length < ([b] : List Block).length := by
        simpa using hz
      refine ⟨⟨bc.blocks, bc.byHash, [(b.header.hash, b)]⟩, ?_, rfl, ?_⟩
      · rw [addBlock, if_neg hd1, if_neg hd2, if_neg hz, if_neg htip]
        simp only [hform]
        rw [if_neg hnl]
        rw [show insertA bc.orphanBlocks b.header.hash b
            = [(b.header.hash, b)] from by rw [horph]; rfl]
        rw [show ({ bc with orphanBlocks := [(b.header.hash, b)] } : Blockchain)
            = ⟨bc.blocks, bc.byHash, [(b.header.hash, b)]⟩ from rfl]
        rw [processOrphans_store_stuck horph hform hnl]
      · simp [lookupA]
  · have hclen : candidate.length = h + 2 := by
      rw [hc]
      simp
      omega
    constructor
    · intro hlen
      have hz : ¬ bc.blocks.length = 0 := by omega
      have htop : h = bc.blocks.length - 1 := by omega
      have htip : b.header.previousHash
          = (bc.blocks.getLastD blockZero).header.hash := by
        rw [getLastD_eq_get bc.blocks blockZero (by omega), ← hkey]
        have : (⟨h, hh⟩ : Fin bc.blocks.length)
            = ⟨bc.blocks.length - 1, by omega⟩ := Fin.ext htop
        rw [this]
      refine ⟨⟨bc.blocks ++ [stampTipB b now],
          insertA bc.byHash (stampTipB b now).header.hash (stampTipB b now),
          []⟩,
        stampTipB b now, ?_, Or.inr rfl, ?_⟩
      · rw [addBlock, if_neg hd1, if_neg hd2, if_neg hz, if_pos htip, horph,
          processOrphans_empty_mk]
      · show bc.blocks ++ [stampTipB b now]
          = candidate.dropLast ++ [stampTipB b now]
        rw [hc, List.dropLast_concat]
        have hn : h + 1 = bc.blocks.length := by omega
        rw [hn, List.take_length]
    · intro hle
      have hz : ¬ bc.blocks.length = 0 := by omega
      have htip : ¬ b.header.previousHash
          = (bc.blocks.getLastD blockZero).header.hash := by
        intro hcon
        rw [getLastD_eq_get bc.blocks blockZero (by omega), ← hkey] at hcon
        have := noDupB_get_inj hinv.2.2.2.1 hh
          (show bc.blocks.length - 1 < bc.blocks.length by omega) hcon
        omega
      have hnl : ¬ bc.blocks.length < candidate.length := by omega
      refine ⟨⟨bc.blocks, bc.byHash, [(b.header.hash, b)]⟩, ?_, rfl, ?_⟩
      · rw [addBlock, if_neg hd1, if_neg hd2, if_neg hz, if_neg htip]
        simp only [hform]
        rw [if_neg hnl]
        rw [show insertA bc.orphanBlocks b.header.hash b
            = [(b.header.hash, b)] from by rw [horph]; rfl]
        rw [show ({ bc with orphanBlocks := [(b.header.hash, b)] } : Blockchain)
            = ⟨bc.blocks, bc.byHash, [(b.header.hash, b)]⟩ from rfl]
        rw [processOrphans_store_stuck horph hform hnl]
      · simp [lookupA]

/-- C3 amended witness: on `chain1` the two-block candidate through the
genesis block wins (tip extension — the chain becomes the candidate);
on `chain2` the equal-length fork `[genesis, [70]]` loses and the fork
block is parked as an orphan. -/
theorem claim_C3_reorg_decision_witness :
    (∃ bc' b2, addBlock chain1 (mkB [66] [65]) 6 = .ok bc'
       ∧ (b2 = stampGenesisB (mkB [66] [65]) 6
           ∨ b2 = stampTipB (mkB [66] [65]) 6)
       ∧ bc'.blocks = [gStamped, mkB [66] [65]].dropLast ++ [b2])
    ∧ (∃ bc', addBlock chain2 (mkB [70] [65]) 9 = .ok bc'
       ∧ bc'.blocks = chain2.blocks
       ∧ lookupA bc'.orphanBlocks (mkB [70] [65]).header.hash
           = some (mkB [70] [65])) := by
  constructor
  · exact (claim_C3_reorg_decision chain1 (mkB [66] [65]) 6
      [gStamped, mkB [66] [65]]
      (by refine ⟨by decide, by decide, by decide, by decide, by decide⟩)
      rfl (by decide) (by decide)).1 (by decide)
  · exact (claim_C3_reorg_decision chain2 (mkB [70] [65]) 9
      [gStamped, mkB [70] [65]]
      (by refine ⟨by decide, by decide, by decide, by decide, by decide⟩)
      rfl (by decide) (by decide)).2 (by decide)

end AiBlockchain
